import Mathlib

/-!
Verification development for the brunch conversation-tree engine.

Go strings are byte strings; we embed them as `List Nat` (each entry a byte,
0..255). Go source string literals are UTF-8 encoded, so the helper `gs`
converts a Lean string literal to its UTF-8 bytes. Machine integers that can
overflow (the SHA-256 word arithmetic) are embedded as `Nat` with explicit
`% 2^32`. `float64` values and `time.Time` values appear in the source only
through their rendered forms (`strconv.FormatFloat(..., 'f', -1, 64)` and
`Format(time.RFC3339)`), both of which survive the JSON round trip exactly,
so they are embedded as opaque wrappers around those rendered byte strings.
-/

namespace Brunch

/-- UTF-8 encoding of one Unicode code point, as Go produces for a string
literal character. -/
def charUtf8 (c : Char) : List Nat :=
  let n := c.toNat
  if n < 128 then [n]
  else if n < 2048 then [192 + n / 64, 128 + n % 64]
  else if n < 65536 then [224 + n / 4096, 128 + (n / 64) % 64, 128 + n % 64]
  else [240 + n / 262144, 128 + (n / 4096) % 64, 128 + (n / 64) % 64, 128 + n % 64]

/-- The UTF-8 bytes of a Lean string literal: the embedding of a Go string
literal with the same characters. -/
def gs (s : String) : List Nat :=
  s.data.foldr (fun c acc => charUtf8 c ++ acc) []

/-- ASCII decimal digits of a natural number (`strconv.Itoa` on
nonnegative input, `fmt.Sprintf("%d", ...)`). -/
def natDecimal (n : Nat) : List Nat :=
  (Nat.toDigits 10 n).map Char.toNat

/-- ASCII decimal rendering of a Go `int` (`strconv.Itoa`). -/
def intDecimal (i : Int) : List Nat :=
  if i < 0 then 45 :: natDecimal i.natAbs else natDecimal i.natAbs

/-- Byte-wise lexicographic comparison, the order Go uses for `string`
comparison and `encoding/json` uses to sort map keys. -/
def bytesLe : List Nat → List Nat → Bool
  | [], _ => true
  | _ :: _, [] => false
  | a :: as2, b :: bs2 =>
    if a < b then true
    else if b < a then false
    else bytesLe as2 bs2

/-- Go `unicode.IsSpace` restricted to ASCII; the source content the claims
exercise is ASCII, where `strings.TrimSpace` trims exactly these bytes. -/
def isAsciiSpace (b : Nat) : Bool :=
  b == 32 || b == 9 || b == 10 || b == 11 || b == 12 || b == 13

/-- Drop leading ASCII whitespace bytes. -/
def dropLeadingSpace : List Nat → List Nat
  | [] => []
  | b :: rest => if isAsciiSpace b then dropLeadingSpace rest else b :: rest

/-- Go `strings.TrimSpace` (at ASCII fidelity): trim whitespace from both
ends of a byte string. -/
def trimSpace (l : List Nat) : List Nat :=
  (dropLeadingSpace (dropLeadingSpace l.reverse).reverse)

/-- Go `strings.Split(s, sep)` for a one-byte separator: the list of chunks
between occurrences of the byte. -/
def splitOnByte (sep : Nat) : List Nat → List (List Nat)
  | [] => [[]]
  | b :: rest =>
    let r := splitOnByte sep rest
    if b == sep then [] :: r
    else match r with
      | [] => [[b]]
      | chunk :: more => (b :: chunk) :: more

/-! ### SHA-256 (FIPS 180-4), executable over byte lists

32-bit words are `Nat` values kept below `2^32` by explicit reduction.
The bitwise operations recurse on an explicit 32-step fuel so that they
reduce inside the kernel. -/

/-- Addition modulo `2^32`. -/
def add32 (a b : Nat) : Nat := (a + b) % 4294967296

/-- Right rotation of a 32-bit word by `k` bits. -/
def rotr (k x : Nat) : Nat := x / 2 ^ k + x % 2 ^ k * 2 ^ (32 - k)

/-- Logical right shift of a 32-bit word by `k` bits. -/
def shr (k x : Nat) : Nat := x / 2 ^ k

/-- Bitwise exclusive or, one bit per fuel step. -/
def xorW : Nat → Nat → Nat → Nat
  | 0, _, _ => 0
  | fuel + 1, a, b => (a + b) % 2 + 2 * xorW fuel (a / 2) (b / 2)

/-- Bitwise and, one bit per fuel step. -/
def andW : Nat → Nat → Nat → Nat
  | 0, _, _ => 0
  | fuel + 1, a, b => a % 2 * (b % 2) + 2 * andW fuel (a / 2) (b / 2)

/-- 32-bit exclusive or. -/
def xor32 (a b : Nat) : Nat := xorW 32 a b

/-- 32-bit and. -/
def and32 (a b : Nat) : Nat := andW 32 a b

/-- 32-bit complement of a word below `2^32`. -/
def not32 (a : Nat) : Nat := 4294967295 - a

/-- The SHA-256 round constants. -/
def sha256K : List Nat :=
  [1116352408, 1899447441, 3049323471, 3921009573, 961987163, 1508970993,
   2453635748, 2870763221, 3624381080, 310598401, 607225278, 1426881987,
   1925078388, 2162078206, 2614888103, 3248222580, 3835390401, 4022224774,
   264347078, 604807628, 770255983, 1249150122, 1555081692, 1996064986,
   2554220882, 2821834349, 2952996808, 3210313671, 3336571891, 3584528711,
   113926993, 338241895, 666307205, 773529912, 1294757372, 1396182291,
   1695183700, 1986661051, 2177026350, 2456956037, 2730485921, 2820302411,
   3259730800, 3345764771, 3516065817, 3600352804, 4094571909, 275423344,
   430227734, 506948616, 659060556, 883997877, 958139571, 1322822218,
   1537002063, 1747873779, 1955562222, 2024104815, 2227730452, 2361852424,
   2428436474, 2756734187, 3204031479, 3329325298]

/-- The SHA-256 initial hash state. -/
def sha256H0 : List Nat :=
  [1779033703, 3144134277, 1013904242, 2773480762, 1359893119, 2600822924,
   528734635, 1541459225]

/-- SHA-256 message padding: a `0x80` byte, zeros to 56 mod 64, then the
bit length as eight big-endian bytes. -/
def padMsg (msg : List Nat) : List Nat :=
  let l := msg.length
  let k := (119 - l % 64) % 64
  let bitLen := 8 * l
  msg ++ 128 :: List.replicate k 0 ++
    [bitLen / 2 ^ 56 % 256, bitLen / 2 ^ 48 % 256, bitLen / 2 ^ 40 % 256, bitLen / 2 ^ 32 % 256,
     bitLen / 2 ^ 24 % 256, bitLen / 2 ^ 16 % 256, bitLen / 2 ^ 8 % 256, bitLen % 256]

/-- Big-endian packing of bytes into 32-bit words. -/
def bytesToWords : List Nat → List Nat
  | b0 :: b1 :: b2 :: b3 :: rest => (b0 * 16777216 + b1 * 65536 + b2 * 256 + b3) :: bytesToWords rest
  | _ => []

/-- Message-schedule extension, carried with the most recent word first so
that the four taps are near the head. -/
def schedRev (rev : List Nat) : Nat → List Nat
  | 0 => rev
  | n + 1 =>
    let w2 := rev.getD 1 0
    let w7 := rev.getD 6 0
    let w15 := rev.getD 14 0
    let w16 := rev.getD 15 0
    let s0 := xor32 (xor32 (rotr 7 w15) (rotr 18 w15)) (shr 3 w15)
    let s1 := xor32 (xor32 (rotr 17 w2) (rotr 19 w2)) (shr 10 w2)
    schedRev (add32 (add32 w16 s0) (add32 w7 s1) :: rev) n

/-- The 64-word message schedule of one block. -/
def msgSched (block16 : List Nat) : List Nat :=
  (schedRev block16.reverse 48).reverse

/-- One SHA-256 compression round. -/
def compressStep (st : Nat × Nat × Nat × Nat × Nat × Nat × Nat × Nat) (kw : Nat × Nat) :
    Nat × Nat × Nat × Nat × Nat × Nat × Nat × Nat :=
  let (a, b, c, d, e, f, g, h) := st
  let s1 := xor32 (xor32 (rotr 6 e) (rotr 11 e)) (rotr 25 e)
  let ch := xor32 (and32 e f) (and32 (not32 e) g)
  let t1 := add32 (add32 (add32 h s1) (add32 ch kw.1)) kw.2
  let s0 := xor32 (xor32 (rotr 2 a) (rotr 13 a)) (rotr 22 a)
  let mj := xor32 (xor32 (and32 a b) (and32 a c)) (and32 b c)
  let t2 := add32 s0 mj
  (add32 t1 t2, a, b, c, add32 d t1, e, f, g)

/-- Compression of one 64-byte block into the running hash state. -/
def processBlock (h : List Nat) (block : List Nat) : List Nat :=
  let w := msgSched (bytesToWords block)
  let init : Nat × Nat × Nat × Nat × Nat × Nat × Nat × Nat :=
    (h.getD 0 0, h.getD 1 0, h.getD 2 0, h.getD 3 0, h.getD 4 0, h.getD 5 0, h.getD 6 0, h.getD 7 0)
  let (a, b, c, d, e, f, g, hh) := (sha256K.zip w).foldl compressStep init
  [add32 (h.getD 0 0) a, add32 (h.getD 1 0) b, add32 (h.getD 2 0) c, add32 (h.getD 3 0) d,
   add32 (h.getD 4 0) e, add32 (h.getD 5 0) f, add32 (h.getD 6 0) g, add32 (h.getD 7 0) hh]

/-- Consume the padded message 64 bytes at a time. -/
def processBlocks (buf : List Nat) (h : List Nat) : List Nat → List Nat
  | [] => h
  | b :: rest =>
    if buf.length = 63 then processBlocks [] (processBlock h (buf ++ [b])) rest
    else processBlocks (buf ++ [b]) h rest

/-- Big-endian bytes of one 32-bit word. -/
def wordBytes (w : Nat) : List Nat := [w / 16777216 % 256, w / 65536 % 256, w / 256 % 256, w % 256]

/-- The 32-byte SHA-256 digest of a byte string. -/
def sha256Bytes (msg : List Nat) : List Nat :=
  (processBlocks [] sha256H0 (padMsg msg)).foldr (fun w acc => wordBytes w ++ acc) []

/-- Lowercase hexadecimal digit byte for a value below 16. -/
def hexDigitByte (n : Nat) : Nat := if n < 10 then 48 + n else 87 + n

/-- Two lowercase hex digit bytes of one byte. -/
def byteHex (b : Nat) : List Nat := [hexDigitByte (b / 16), hexDigitByte (b % 16)]

/-- The 64-byte lowercase-hex SHA-256 digest of a byte string:
`hex.EncodeToString(hasher.Sum(nil))` after writing `msg`. -/
def sha256hex (msg : List Nat) : List Nat :=
  (sha256Bytes msg).foldr (fun b acc => byteHex b ++ acc) []

/-! ### Standard base64 (Go `encoding/base64` StdEncoding) -/

/-- The standard base64 alphabet value of index `n < 64`, as a byte. -/
def b64Char (n : Nat) : Nat :=
  if n < 26 then 65 + n
  else if n < 52 then 97 + (n - 26)
  else if n < 62 then 48 + (n - 52)
  else if n = 62 then 43 else 47

/-- Standard base64 encoding with padding of a byte string
(`base64.StdEncoding.EncodeToString`). -/
def b64Encode : List Nat → List Nat
  | [] => []
  | [b0] =>
    [b64Char (b0 / 4), b64Char (b0 % 4 * 16), 61, 61]
  | [b0, b1] =>
    [b64Char (b0 / 4), b64Char (b0 % 4 * 16 + b1 / 16), b64Char (b1 % 16 * 4), 61]
  | b0 :: b1 :: b2 :: rest =>
    b64Char (b0 / 4) :: b64Char (b0 % 4 * 16 + b1 / 16) ::
      b64Char (b1 % 16 * 4 + b2 / 64) :: b64Char (b2 % 64) :: b64Encode rest

/-- Value of one base64 alphabet byte, or none for a byte outside the
alphabet. -/
def b64Value (b : Nat) : Option Nat :=
  if 65 ≤ b && b ≤ 90 then some (b - 65)
  else if 97 ≤ b && b ≤ 122 then some (b - 97 + 26)
  else if 48 ≤ b && b ≤ 57 then some (b - 48 + 52)
  else if b == 43 then some 62
  else if b == 47 then some 63
  else none

/-- Strict standard base64 decoding with padding
(`base64.StdEncoding.DecodeString`); `none` on malformed input. -/
def b64Decode : List Nat → Option (List Nat)
  | [] => some []
  | [c0, c1, 61, 61] => do
    let v0 ← b64Value c0
    let v1 ← b64Value c1
    if v1 % 16 == 0 then some [v0 * 4 + v1 / 16] else none
  | [c0, c1, c2, 61] => do
    let v0 ← b64Value c0
    let v1 ← b64Value c1
    let v2 ← b64Value c2
    if v2 % 4 == 0 then some [v0 * 4 + v1 / 16, v1 % 16 * 16 + v2 / 4] else none
  | c0 :: c1 :: c2 :: c3 :: rest => do
    let v0 ← b64Value c0
    let v1 ← b64Value c1
    let v2 ← b64Value c2
    let v3 ← b64Value c3
    let tail ← b64Decode rest
    some ([v0 * 4 + v1 / 16, v1 % 16 * 16 + v2 / 4, v2 % 4 * 64 + v3] ++ tail)
  | _ => none

end Brunch

namespace Brunch

/-! ### The node data model (brunch.go, node.go)

A `time.Time` enters hashing and serialization only through its RFC3339
rendering, which the JSON round trip preserves, so it is embedded as that
rendered byte string. A `float64` temperature likewise appears only through
`strconv.FormatFloat(t, 'f', -1, 64)` and survives JSON exactly. -/

/-- Embedded `time.Time`: the `Format(time.RFC3339)` rendering. -/
structure GoTime where
  rfc3339 : List Nat
deriving DecidableEq, Repr

/-- Embedded `float64`: the `strconv.FormatFloat(x, 'f', -1, 64)` rendering. -/
structure GoFloat where
  fmtF : List Nat
deriving DecidableEq, Repr

/-- MessageData: a role plus the stored base64-encoded payload and optional
image paths (brunch.go). -/
structure MessageData where
  role : List Nat
  b64EncodedContent : List Nat
  images : List (List Nat)
deriving DecidableEq, Repr

/-- NewMessageData: base64-encodes the raw content (brunch.go). -/
def NewMessageData (role unencodedContent : List Nat) : MessageData :=
  { role := role, b64EncodedContent := b64Encode unencodedContent, images := [] }

/-- UnencodedContent: decode the stored base64 payload, empty on failure
(brunch.go). -/
def MessageData.unencodedContent (m : MessageData) : List Nat :=
  (b64Decode m.b64EncodedContent).getD []

/-- The variant-specific fields of a node: a RootNode carries the
conversation parameters, a MessagePairNode carries the two optional
messages and a timestamp. -/
inductive NodeData where
  | root (provider model prompt : List Nat) (temperature : GoFloat) (maxTokens : Int)
  | pair (assistant user : Option MessageData) (time : GoTime)
deriving DecidableEq, Repr

/-- Hash() of a node, determined by its variant fields alone (brunch.go):
a RootNode hashes provider+model+prompt+temperature+maxTokens; a
MessagePairNode returns the empty string when either message is unset and
otherwise hashes assistant-payload + user-payload + RFC3339 time. -/
def NodeData.hash : NodeData → List Nat
  | .root provider model prompt temperature maxTokens =>
    sha256hex (provider ++ model ++ prompt ++ temperature.fmtF ++ intDecimal maxTokens)
  | .pair assistant user time =>
    match assistant, user with
    | some a, some u => sha256hex (a.b64EncodedContent ++ u.b64EncodedContent ++ time.rfc3339)
    | _, _ => []

mutual
/-- An in-memory node: variant fields, the stored `Parent` pointer
(`none` for nil, otherwise the address — the root-relative path — of the
node it points to), and the ordered `Children` slice. The heap the Go code
builds is tree-shaped with no sharing, so root-relative paths are faithful
addresses for pointer identity. -/
inductive MemNode where
  | mk (data : NodeData) (parentAddr : Option (List Nat)) (children : MemForest)
/-- The children slice of a node. -/
inductive MemForest where
  | nil
  | cons (hd : MemNode) (tl : MemForest)
end

/-- Variant fields of a node. -/
def MemNode.data : MemNode → NodeData
  | .mk d _ _ => d

/-- Stored parent pointer of a node. -/
def MemNode.parentAddr : MemNode → Option (List Nat)
  | .mk _ pa _ => pa

/-- Children of a node. -/
def MemNode.children : MemNode → MemForest
  | .mk _ _ cs => cs

/-- Hash() of an in-memory node: a function of its variant fields only. -/
def MemNode.hash (n : MemNode) : List Nat := n.data.hash

/-- The children slice as a list. -/
def MemForest.toList : MemForest → List MemNode
  | .nil => []
  | .cons hd tl => hd :: MemForest.toList tl

/-- A children slice from a list. -/
def MemForest.ofList : List MemNode → MemForest
  | [] => .nil
  | hd :: tl => .cons hd (MemForest.ofList tl)

/-- Number of children. -/
def MemForest.len : MemForest → Nat
  | .nil => 0
  | .cons _ tl => 1 + MemForest.len tl

/-- NewRootNode: a parameterized root with nil parent and no children
(brunch.go). -/
def NewRootNode (provider model prompt : List Nat) (temperature : GoFloat)
    (maxTokens : Int) : MemNode :=
  .mk (.root provider model prompt temperature maxTokens) none .nil

/-- NewMessagePairNode: an empty pair stamped with the creation time, whose
`Parent` field is set to the constructor argument (brunch.go). -/
def NewMessagePairNode (parent : Option (List Nat)) (time : GoTime) : MemNode :=
  .mk (.pair none none time) parent .nil

/-- AddChild: append the child to the receiver's children slice
(node.go). It writes no other field; in particular it does not touch the
child's `Parent` pointer. -/
def MemNode.addChild : MemNode → MemNode → MemNode
  | .mk d pa cs, c => .mk d pa (MemForest.ofList (cs.toList ++ [c]))

/-! ### Path addressing and updates -/

/-- The node a root-relative path points at, if the path is valid. -/
def nodeAt (n : MemNode) : List Nat → Option MemNode
  | [] => some n
  | i :: rest =>
    match (MemForest.toList n.children).get? i with
    | some c => nodeAt c rest
    | none => none

/-- Rewrite the node at a path with `g`, leaving the tree unchanged when the
path is invalid. -/
def modifyAt (g : MemNode → MemNode) : MemNode → List Nat → MemNode
  | n, [] => g n
  | .mk d pa cs, i :: rest =>
    let l := MemForest.toList cs
    match l.get? i with
    | none => .mk d pa cs
    | some c => .mk d pa (MemForest.ofList (l.set i (modifyAt g c rest)))

/-- Attach a child under the node at a path (the `AddChild` call sites). -/
def addChildAt (n : MemNode) (p : List Nat) (c : MemNode) : MemNode :=
  modifyAt (fun m => m.addChild c) n p

/-- Set the two messages of the pair node at a path, as the provider's
creator closure does after a successful call. -/
def fillPairAt (n : MemNode) (p : List Nat) (user assistant : MessageData) : MemNode :=
  modifyAt (fun m =>
    match m with
    | .mk (.pair _ _ t) pa cs => .mk (.pair (some assistant) (some user) t) pa cs
    | other => other) n p

/-- Variant fields of the node at a path. -/
def dataAt (n : MemNode) (p : List Nat) : Option NodeData :=
  (nodeAt n p).map MemNode.data

/-- Stored parent pointer of the node at a path. -/
def parentAt (n : MemNode) (p : List Nat) : Option (Option (List Nat)) :=
  (nodeAt n p).map MemNode.parentAddr

/-- Number of children of the node at a path. -/
def countAt (n : MemNode) (p : List Nat) : Option Nat :=
  (nodeAt n p).map (fun c => c.children.len)

/-- Hash() of the node at a path. -/
def hashAt (n : MemNode) (p : List Nat) : Option (List Nat) :=
  (nodeAt n p).map MemNode.hash

end Brunch

namespace Brunch

/-! ### Tree serialization (node.go marshalNode / unmarshalNode)

The wire format is `{node_data: <variant fields>, children: {<hash>:
<child document>, ...}}`. `children` is a Go map keyed by child hash:
building it collapses duplicate hashes (the last inserted child wins), and
`encoding/json` emits a map with its keys in sorted byte order. Unmarshal
iterates the decoded children map; Go map iteration order is unspecified,
and the document's own (sorted) order is the one faithful deterministic
choice, so the model iterates entries in document order. -/

mutual
/-- A serialized node document. -/
inductive MDoc where
  | mk (data : NodeData) (children : MDocEntries)
/-- The serialized children map, as the ordered entry list of the JSON
document. -/
inductive MDocEntries where
  | nil
  | cons (key : List Nat) (doc : MDoc) (tl : MDocEntries)
end

/-- Variant fields of a document. -/
def MDoc.data : MDoc → NodeData
  | .mk d _ => d

/-- Children entries of a document. -/
def MDoc.children : MDoc → MDocEntries
  | .mk _ es => es

/-- Entry list of a document's children map. -/
def MDocEntries.toList : MDocEntries → List (List Nat × MDoc)
  | .nil => []
  | .cons k d tl => (k, d) :: MDocEntries.toList tl

/-- Children entries from a list. -/
def MDocEntries.ofList : List (List Nat × MDoc) → MDocEntries
  | [] => .nil
  | (k, d) :: tl => .cons k d (MDocEntries.ofList tl)

/-- Keep, for each key, only its last occurrence: the association-list
content of a Go map built by inserting the entries left to right. -/
def dedupLast : List (List Nat × MDoc) → List (List Nat × MDoc)
  | [] => []
  | e :: rest =>
    if (rest.map Prod.fst).contains e.1 then dedupLast rest
    else e :: dedupLast rest

/-- Insert into a list sorted by `key`, before the first element whose key
is not smaller. -/
def ordInsert {α : Type} (key : α → List Nat) (a : α) : List α → List α
  | [] => [a]
  | b :: l => if bytesLe (key a) (key b) then a :: b :: l else b :: ordInsert key a l

/-- Insertion sort by a byte-string key: the sorted-key order in which
`encoding/json` emits a Go map. -/
def sortByKey {α : Type} (key : α → List Nat) : List α → List α
  | [] => []
  | a :: l => ordInsert key a (sortByKey key l)

mutual
/-- marshalNode: serialize the variant fields and the children as a map
from child hash to recursively marshaled child (node.go). Building the
map keeps one entry per hash (last child wins) and serializing it emits
entries in sorted key order. -/
def marshalNode : MemNode → MDoc
  | .mk d _ cs =>
    .mk d (MDocEntries.ofList (sortByKey Prod.fst (dedupLast (marshalEntriesRaw cs))))
/-- The (hash, marshaled child) pairs of a children slice, in slice
order, before map collapse and key sorting. -/
def marshalEntriesRaw : MemForest → List (List Nat × MDoc)
  | .nil => []
  | .cons c tl => (c.data.hash, marshalNode c) :: marshalEntriesRaw tl
end

/-- Go only fixes up the `Parent` pointer of children that decode as
message pairs; a root-typed child keeps its nil parent (node.go). -/
def setParentLikeGo (child : MemNode) (self : List Nat) : MemNode :=
  match child with
  | .mk (.pair a u t) _ cs => .mk (.pair a u t) (some self) cs
  | other => other

mutual
/-- unmarshalNode at an address: rebuild the node with nil parent, rebuild
the children from the document entries, and set each pair child's parent
to the just-built node (node.go). `self` is the address the rebuilt node
will occupy. -/
def unmarshalAt : MDoc → List Nat → MemNode
  | .mk d es, self => .mk d none (unmarshalEntries es self 0)
/-- Rebuild the children from document entries; the `i`-th child occupies
address `self ++ [i]` and, when it is a pair, gets its parent pointer set
to `self`. -/
def unmarshalEntries : MDocEntries → List Nat → Nat → MemForest
  | .nil, _, _ => .nil
  | .cons _ d tl, self, i =>
    .cons (setParentLikeGo (unmarshalAt d (self ++ [i])) self)
      (unmarshalEntries tl self (i + 1))
end

/-- unmarshalNode of a whole document: the rebuilt node sits at the root
address. -/
def unmarshalNode (doc : MDoc) : MemNode := unmarshalAt doc []

/-- The round trip a snapshot performs on the in-memory tree. -/
def roundTrip (t : MemNode) : MemNode := unmarshalNode (marshalNode t)

/-! ### Content trees

A content tree erases addresses and parent pointers, keeping the variant
fields and the ordered children: what `marshal` serializes and what the
claims compare. -/

mutual
/-- A parent-free content tree. -/
inductive CTree where
  | mk (data : NodeData) (children : CForest)
/-- Content-tree children. -/
inductive CForest where
  | nil
  | cons (hd : CTree) (tl : CForest)
end

/-- Variant fields of a content tree. -/
def CTree.dataOf : CTree → NodeData
  | .mk d _ => d

/-- Children of a content tree. -/
def CTree.childrenOf : CTree → CForest
  | .mk _ cs => cs

/-- Content children as a list. -/
def CForest.toList : CForest → List CTree
  | .nil => []
  | .cons hd tl => hd :: CForest.toList tl

/-- Content children from a list. -/
def CForest.ofList : List CTree → CForest
  | [] => .nil
  | hd :: tl => .cons hd (CForest.ofList tl)

mutual
/-- The content of an in-memory node: drop parents and addresses. -/
def contentOf : MemNode → CTree
  | .mk d _ cs => .mk d (contentForest cs)
/-- The content of a children slice. -/
def contentForest : MemForest → CForest
  | .nil => .nil
  | .cons c tl => .cons (contentOf c) (contentForest tl)
end

mutual
/-- The content a document describes, children in document order. -/
def docContent : MDoc → CTree
  | .mk d es => .mk d (docContentEntries es)
/-- The contents of document children entries, in order. -/
def docContentEntries : MDocEntries → CForest
  | .nil => .nil
  | .cons _ d tl => .cons (docContent d) (docContentEntries tl)
end

/-- Sort key of a content child: its node hash. -/
def ctreeKey (c : CTree) : List Nat := c.dataOf.hash

mutual
/-- Recursively reorder every children list into sorted-hash order: the
normal form that survives serialization of hash-keyed children maps. -/
def csort : CTree → CTree
  | .mk d cs => .mk d (CForest.ofList (sortByKey ctreeKey (csortF cs)))
/-- Sort the members of a children list recursively (the list itself is
sorted by the caller). -/
def csortF : CForest → List CTree
  | .nil => []
  | .cons hd tl => csort hd :: csortF tl
end

/-! ### Tree predicates -/

/-- No byte string occurs twice in the list. -/
def listNodupB : List (List Nat) → Bool
  | [] => true
  | x :: l => !(l.contains x) && listNodupB l

/-- The hash list of a children slice. -/
def childHashes (f : MemForest) : List (List Nat) :=
  f.toList.map (fun c => c.data.hash)

mutual
/-- Every message pair in the tree has both messages set. -/
def allPairsComplete : MemNode → Bool
  | .mk d _ cs =>
    (match d with
     | .pair a u _ => a.isSome && u.isSome
     | .root _ _ _ _ _ => true) && allPairsCompleteF cs
/-- Completeness over a children slice. -/
def allPairsCompleteF : MemForest → Bool
  | .nil => true
  | .cons c tl => allPairsComplete c && allPairsCompleteF tl
end

mutual
/-- Every node's children have pairwise distinct hashes. -/
def sibDistinct : MemNode → Bool
  | .mk _ _ cs => listNodupB (childHashes cs) && sibDistinctF cs
/-- Sibling-hash distinctness over a children slice. -/
def sibDistinctF : MemForest → Bool
  | .nil => true
  | .cons c tl => sibDistinct c && sibDistinctF tl
end

mutual
/-- The parent pointers below a node are correctly linked, `self` being
the node's own address: every pair child points at `self`, recursively at
every depth. Root-typed children carry no parent pointer (Go leaves them
nil), so they are only recursed into. -/
def linkedAtB : MemNode → List Nat → Bool
  | .mk _ _ cs, self => linkedF cs self 0
/-- Linkage of a children slice, `i` the index of the first member. -/
def linkedF : MemForest → List Nat → Nat → Bool
  | .nil, _, _ => true
  | .cons c tl, self, i =>
    (match c.data with
     | .pair _ _ _ => c.parentAddr == some self
     | .root _ _ _ _ _ => true)
      && linkedAtB c (self ++ [i]) && linkedF tl self (i + 1)
end

end Brunch

namespace Brunch

/-! ### Hash index and cursor navigation (utils.go MapTree, chat.go) -/

/-- Insert into an association list with Go map semantics: overwrite the
existing binding for the key, else append. -/
def mapUpd : List (List Nat × List Nat) → List Nat → List Nat → List (List Nat × List Nat)
  | [], k, v => [(k, v)]
  | (k0, v0) :: tl, k, v =>
    if k0 == k then (k0, v) :: tl else (k0, v0) :: mapUpd tl k v

/-- Merge the entries of the second map into the first, later entries
overwriting (`for k, v := range childMap { tree[k] = v }`). -/
def mergeInto (acc m : List (List Nat × List Nat)) : List (List Nat × List Nat) :=
  m.foldl (fun a e => mapUpd a e.1 e.2) acc

mutual
/-- MapTree: one full traversal building the hash-to-node index. A node is
indexed only when its hash is non-empty; child maps are merged in, child
entries overwriting on collision (utils.go). Values are node addresses. -/
def mapTree : MemNode → List Nat → List (List Nat × List Nat)
  | .mk d _ cs, p =>
    mapTreeF cs p 0 (if d.hash.isEmpty then [] else [(d.hash, p)])
/-- Fold over the children, merging each child's map into the accumulator. -/
def mapTreeF : MemForest → List Nat → Nat → List (List Nat × List Nat) →
    List (List Nat × List Nat)
  | .nil, _, _, acc => acc
  | .cons c tl, p, i, acc =>
    mapTreeF tl p (i + 1) (mergeInto acc (mapTree c (p ++ [i])))
end

/-- Exact lookup in an association list. -/
def assocFind : List (List Nat × List Nat) → List Nat → Option (List Nat)
  | [], _ => none
  | (k0, v0) :: tl, k => if k0 == k then some v0 else assocFind tl k

/-- First entry whose key has the query as a prefix (the snapshot-restore
prefix scan; Go iterates its map in unspecified order, the model scans in
index order). -/
def scanPfx (m : List (List Nat × List Nat)) (q : List Nat) :
    Option (List Nat × List Nat) :=
  m.find? (fun e => q.isPrefixOf e.1)

/-- The error values the navigation methods return, plus the runtime panic
a negative `Child` index triggers (a Go slice access with a negative index
panics instead of returning an error). -/
inductive NavErr where
  | notFound
  | noParent
  | indexOutOfBounds
  | invalidNodeType
  | runtimePanic
deriving DecidableEq, Repr

/-- The ChatInstance state the claims exercise: the owned root tree, the
cursor (address of `currentNode`), the chat-enabled flag and the two image
queues (instance-level and provider-level). -/
structure ChatState where
  root : MemNode
  cursor : List Nat
  chatEnabled : Bool
  queuedImages : List (List Nat)
  pendingImages : List (List Nat)

/-- Goto: build the full hash index, move the cursor on an exact hash
match, otherwise fail with not-found (chat.go). There is no prefix
fallback here. -/
def gotoNav (st : ChatState) (nodeHash : List Nat) : Except NavErr ChatState :=
  match assocFind (mapTree st.root []) nodeHash with
  | some p => .ok { st with cursor := p }
  | none => .error .notFound

/-- Parent: from a pair with a non-nil parent move up; from the root a
successful no-op; from a pair with nil parent an error (chat.go). The
invalid-node fallback is unreachable for the two node kinds. -/
def parentNav (st : ChatState) : Except NavErr ChatState :=
  match nodeAt st.root st.cursor with
  | none => .error .invalidNodeType
  | some n =>
    match n.data with
    | .root _ _ _ _ _ => .ok st
    | .pair _ _ _ =>
      match n.parentAddr with
      | some p => .ok { st with cursor := p }
      | none => .error .noParent

/-- Child: the code guards only `idx < len(children)`; on failure it
returns the index-out-of-bounds error, on success it evaluates
`Children[idx]`, which for a negative index is a runtime panic rather
than an error (chat.go). -/
def childNav (st : ChatState) (idx : Int) : Except NavErr ChatState :=
  match nodeAt st.root st.cursor with
  | none => .error .invalidNodeType
  | some n =>
    if idx < (n.children.len : Int) then
      if 0 ≤ idx then .ok { st with cursor := st.cursor ++ [idx.toNat] }
      else .error .runtimePanic
    else .error .indexOutOfBounds

/-- Root: unconditionally reseat the cursor on the tree root (chat.go). -/
def rootNav (st : ChatState) : Except NavErr ChatState :=
  .ok { st with cursor := [] }

/-- One navigation call. -/
inductive NavCmd where
  | jump (nodeHash : List Nat)
  | up
  | down (idx : Int)
  | top

/-- Execute one navigation call; a call that fails (or panics) leaves the
state as it was. -/
def execNav (st : ChatState) : NavCmd → ChatState
  | .jump h => match gotoNav st h with | .ok st2 => st2 | .error _ => st
  | .up => match parentNav st with | .ok st2 => st2 | .error _ => st
  | .down i => match childNav st i with | .ok st2 => st2 | .error _ => st
  | .top => match rootNav st with | .ok st2 => st2 | .error _ => st

/-- Execute a sequence of navigation calls. -/
def runNav (st : ChatState) (cmds : List NavCmd) : ChatState :=
  cmds.foldl execNav st

/-! ### Message submission (chat.go SubmitMessage, anthn2.go ExtendFrom)

The provider's network call is an oracle: the response text or an error.
`ExtendFrom` constructs the new pair with the cursor as its parent and
attaches it to the cursor node immediately; the creator closure fills in
the two messages only after the call succeeds. -/

/-- SubmitMessage: disabled chat returns an empty reply and changes
nothing; otherwise queued images move to the provider, `ExtendFrom`
attaches a fresh empty pair under the cursor, and the creator either
fails (the empty pair stays attached, the cursor stays put) or fills the
pair and advances the cursor to it. -/
def submitMessage (st : ChatState) (message : List Nat) (now : GoTime)
    (oracle : Except (List Nat) (List Nat)) :
    Except (List Nat) (List Nat) × ChatState :=
  if !st.chatEnabled then (.ok [], st)
  else
    let st1 := if st.queuedImages.isEmpty then st
      else { st with pendingImages := st.pendingImages ++ st.queuedImages,
                     queuedImages := [] }
    let newIdx := ((nodeAt st1.root st1.cursor).map (fun n => n.children.len)).getD 0
    let pairNode := NewMessagePairNode (some st1.cursor) now
    let st2 := { st1 with root := addChildAt st1.root st1.cursor pairNode }
    let usedImages := st2.pendingImages
    match oracle with
    | .error e => (.error e, st2)
    | .ok resp =>
      let newPath := st1.cursor ++ [newIdx]
      let user0 := NewMessageData (gs "user") message
      let user1 := if usedImages.isEmpty then user0 else { user0 with images := usedImages }
      let assistant := NewMessageData (gs "assistant") resp
      (.ok assistant.unencodedContent,
       { st2 with root := fillPairAt st2.root newPath user1 assistant,
                  cursor := newPath, pendingImages := [] })

/-! ### Snapshot restore (chat.go NewChatInstanceFromSnapshot) -/

/-- A snapshot: provider identity, the cursor hash at save time, and the
serialized tree. -/
structure Snapshot where
  providerName : List Nat
  activeBranch : List Nat
  contents : MDoc

/-- The error cases of snapshot restore the model can reach. -/
inductive RestoreErr where
  | notRootNode
  | providerMissing
  | branchNotFound
deriving DecidableEq, Repr

/-- NewChatInstanceFromSnapshot: unmarshal, check the top node is a root,
check the provider exists, seat the cursor on the root; a non-empty stored
branch hash is resolved exactly first, then by prefix scan, and failure of
both is an error (chat.go). -/
def newChatFromSnapshot (providers : List (List Nat)) (snap : Snapshot) :
    Except RestoreErr ChatState :=
  let root := unmarshalNode snap.contents
  match root.data with
  | .pair _ _ _ => .error .notRootNode
  | .root _ _ _ _ _ =>
    if !(providers.contains snap.providerName) then .error .providerMissing
    else
      let st : ChatState :=
        { root := root, cursor := [], chatEnabled := true,
          queuedImages := [], pendingImages := [] }
      if snap.activeBranch.isEmpty then .ok st
      else
        match assocFind (mapTree root []) snap.activeBranch with
        | some p => .ok { st with cursor := p }
        | none =>
          match scanPfx (mapTree root []) snap.activeBranch with
          | some e => .ok { st with cursor := e.2 }
          | none => .error .branchNotFound

/-! ### Artifact extraction (artifacts.go) -/

/-- An extracted artifact: a file block (the numeric id is the byte offset
the source renders into the Id string) or free text. -/
inductive Artifact where
  | file (id : Nat) (data : List Nat) (name : List Nat) (fileType : List Nat)
  | nonFile (data : List Nat)
deriving DecidableEq, Repr

/-- Type() of an artifact: whether it is a FileArtifact. -/
def Artifact.isFile : Artifact → Bool
  | .file _ _ _ _ => true
  | .nonFile _ => false

/-- The parser's two error messages. -/
inductive ParseErr where
  | noEOL
  | noBlockIndicator
deriving DecidableEq, Repr

/-- movIdxToEOL as a splitter: the bytes before the first newline and the
bytes after it, but only when something follows the newline — the method
reports failure both when no newline exists and when the newline is the
last byte (artifacts.go). -/
def eolSplit : List Nat → Option (List Nat × List Nat)
  | [] => none
  | b :: rest =>
    if b == 10 then (if rest.isEmpty then none else some ([], rest))
    else
      match eolSplit rest with
      | some (line, r) => some (b :: line, r)
      | none => none

/-- Whether the bytes open with a triple backtick, the fence test the
scanning loops apply at each position (artifacts.go). -/
def startsFence : List Nat → Bool
  | a :: b :: c :: _ => a == 96 && b == 96 && c == 96
  | _ => false

/-- parseUntilBlockIndicator as a splitter: the bytes before the first
triple backtick and the bytes after it, or none when no fence follows
(artifacts.go). -/
def findFence : List Nat → Option (List Nat × List Nat)
  | [] => none
  | b :: rest =>
    if startsFence (b :: rest) then some ([], rest.drop 2)
    else
      match findFence rest with
      | some (before, after) => some (b :: before, after)
      | none => none

/-- Whether a fence occurs anywhere in the bytes. -/
def containsFence (l : List Nat) : Bool := (findFence l).isSome

/-- parseMarkdownBlock: read the info line; an empty trimmed info string
produces a NonFileArtifact from the block body, a non-empty one is split
at `:` into type or type:name and produces a FileArtifact; an unterminated
info line or a missing closing fence is an error. `rem` is the content
after the opening fence, `pos` its absolute offset; the result carries the
bytes consumed through the closing fence (artifacts.go). -/
def parseMarkdownBlock (rem : List Nat) (pos : Nat) : Except ParseErr (Artifact × Nat) :=
  match eolSplit rem with
  | none => .error .noEOL
  | some (line, rest) =>
    let fileInfo := trimSpace line
    if fileInfo.isEmpty then
      match findFence rest with
      | none => .error .noBlockIndicator
      | some (data, _) => .ok (.nonFile data, line.length + 1 + data.length + 3)
    else
      let fi := splitOnByte 58 fileInfo
      let ft := match fi with
        | [t, nm] => (t, nm)
        | _ => (fileInfo, [])
      match findFence rest with
      | none => .error .noBlockIndicator
      | some (data, _) =>
        .ok (.file (pos + line.length + 1) data ft.2 ft.1, line.length + 1 + data.length + 3)

/-- The parse loop: accumulate free text until a fence, then parse one
block; any block error aborts the whole parse with an empty artifact list,
exactly as the source returns `[]Artifact{}, err` (artifacts.go). -/
def parseLoop (rem : List Nat) (pos : Nat) (textAcc : List Nat) :
    List Artifact × Option ParseErr :=
  match rem with
  | [] =>
    let t := trimSpace textAcc
    (if t.isEmpty then [] else [.nonFile t], none)
  | b :: rest =>
    if startsFence (b :: rest) then
      let t := trimSpace textAcc
      let textArts := if t.isEmpty then ([] : List Artifact) else [.nonFile t]
      match parseMarkdownBlock (rest.drop 2) (pos + 3) with
      | .error e => ([], some e)
      | .ok (a, consumed) =>
        match parseLoop ((rest.drop 2).drop consumed) (pos + 3 + consumed) [] with
        | (_, some e) => ([], some e)
        | (arts, none) => (textArts ++ a :: arts, none)
    else parseLoop rest (pos + 1) (textAcc ++ [b])
  termination_by rem.length
  decreasing_by
    · simp [List.length_drop]; omega
    · simp

/-- parse on an already-decoded payload. -/
def parseArtifacts (content : List Nat) : List Artifact × Option ParseErr :=
  parseLoop content 0 []

/-- The errors ParseArtifactsFrom can report. -/
inductive ArtifactsErr where
  | badBase64
  | parseFail (e : ParseErr)
deriving DecidableEq, Repr

/-- ParseArtifactsFrom: a nil message yields no artifacts, a payload that
fails base64 decoding is an error, otherwise the decoded payload is
parsed (artifacts.go). -/
def ParseArtifactsFrom (msg : Option MessageData) : List Artifact × Option ArtifactsErr :=
  match msg with
  | none => ([], none)
  | some m =>
    match b64Decode m.b64EncodedContent with
    | none => ([], some .badBase64)
    | some content =>
      match parseArtifacts content with
      | (arts, none) => (arts, none)
      | (_, some e) => ([], some (.parseFail e))

end Brunch

namespace Brunch

/-! ### Helper observations and concrete fixtures -/

/-- The cursor of a navigation result, keeping the error. -/
def navOutcome (r : Except NavErr ChatState) : Except NavErr (List Nat) :=
  r.map ChatState.cursor

/-- The cursor of a restore result, keeping the error. -/
def restoreCursor (r : Except RestoreErr ChatState) : Except RestoreErr (List Nat) :=
  r.map ChatState.cursor

/-- Whether a byte is a lowercase hexadecimal digit character. -/
def isLowerHexByte (b : Nat) : Bool :=
  (48 ≤ b && b ≤ 57) || (97 ≤ b && b ≤ 102)

/-- Whether a node's variant fields are root fields. -/
def NodeData.isRoot : NodeData → Bool
  | .root _ _ _ _ _ => true
  | .pair _ _ _ => false

/-- A fixed creation time for the concrete fixtures. -/
def exTime : GoTime := ⟨gs "2025-01-01T00:00:00Z"⟩

/-- A concrete assistant message with the given stored payload. -/
def exAsst (c : String) : MessageData := ⟨gs "assistant", gs c, []⟩

/-- A concrete user message with the given stored payload. -/
def exUser (c : String) : MessageData := ⟨gs "user", gs c, []⟩

/-- A complete message pair with the given stored payloads. -/
def exPairData (a u : String) : NodeData :=
  .pair (some (exAsst a)) (some (exUser u)) exTime

/-- Concrete root parameters. -/
def exRootData : NodeData := .root (gs "p") (gs "m") (gs "s") ⟨gs "0.7"⟩ 100

/-- A childless complete pair node with the given parent pointer. -/
def exPairNode (a u : String) (pa : Option (List Nat)) : MemNode :=
  .mk (exPairData a u) pa .nil

/-- A childless root node. -/
def exRootNode : MemNode := .mk exRootData none .nil

/-- The hash of the pair with payloads `QQ==`/`QQ==` at the fixed time. -/
def exHashX : List Nat :=
  gs "eca5f940df820c7ea753e4611201e79885c3f5752096cabb52d24e6d393b957a"

/-- A root with two identical complete pair children: their equal hashes
collide in the serialized children map. -/
def exDupTree : MemNode :=
  .mk exRootData none
    (.cons (exPairNode "QQ==" "QQ==" (some []))
      (.cons (exPairNode "QQ==" "QQ==" (some [])) .nil))

/-- A root whose two distinct children sit in the reverse of sorted-hash
order, so serialization reorders them. -/
def exFlipTree : MemNode :=
  .mk exRootData none
    (.cons (exPairNode "QQ==" "QQ==" (some []))
      (.cons (exPairNode "Qg==" "Qg==" (some [])) .nil))

/-- A three-pair tree with pairwise distinct hashes at every level. -/
def exWitTree : MemNode :=
  .mk exRootData none
    (.cons (.mk (exPairData "QQ==" "QQ==") (some [])
        (.cons (exPairNode "Qw==" "Qw==" (some [0])) .nil))
      (.cons (exPairNode "Qg==" "Qg==" (some [])) .nil))

/-- A root with one complete pair child. -/
def exOneChildTree : MemNode :=
  .mk exRootData none (.cons (exPairNode "QQ==" "QQ==" (some [])) .nil)

/-- A chat state seated at the root of the one-child tree. -/
def exOneChildState : ChatState :=
  { root := exOneChildTree, cursor := [], chatEnabled := true,
    queuedImages := [], pendingImages := [] }

/-- A chat state owning a childless root. -/
def exEmptyState : ChatState :=
  { root := exRootNode, cursor := [], chatEnabled := true,
    queuedImages := [], pendingImages := [] }

/-- The one-child tree as a serialized document (the entry key is
irrelevant: unmarshal reads only entry values). -/
def exDoc : MDoc :=
  .mk exRootData (.cons [] (.mk (exPairData "QQ==" "QQ==") .nil) .nil)

/-- A snapshot of the one-child tree whose stored branch hash matches the
pair child exactly. -/
def exSnapExact : Snapshot :=
  { providerName := gs "anthropic", activeBranch := exHashX, contents := exDoc }

/-- The same snapshot with only a hash prefix stored. -/
def exSnapPfx : Snapshot :=
  { providerName := gs "anthropic", activeBranch := gs "eca5f940", contents := exDoc }

/-- The same snapshot with a branch hash matching nothing. -/
def exSnapMiss : Snapshot :=
  { providerName := gs "anthropic", activeBranch := gs "zz", contents := exDoc }

end Brunch

namespace Brunch

/-! ## Theorems -/

theorem memForest_toList_ofList (l : List MemNode) : (MemForest.ofList l).toList = l := by
  induction l with
  | nil => rfl
  | cons hd tl ih => simp [MemForest.ofList, MemForest.toList, ih]

theorem mdocEntries_toList_ofList (l : List (List Nat × MDoc)) :
    (MDocEntries.ofList l).toList = l := by
  induction l with
  | nil => rfl
  | cons hd tl ih => cases hd; simp [MDocEntries.ofList, MDocEntries.toList, ih]

theorem cforest_toList_ofList (l : List CTree) : (CForest.ofList l).toList = l := by
  induction l with
  | nil => rfl
  | cons hd tl ih => simp [CForest.ofList, CForest.toList, ih]

theorem cforest_ofList_toList : ∀ f : CForest, CForest.ofList f.toList = f
  | .nil => rfl
  | .cons hd tl => by
    simp [CForest.toList, CForest.ofList, cforest_ofList_toList tl]

/-! ### Shape facts about the digest -/

theorem processBlock_len (h block : List Nat) : (processBlock h block).length = 8 := rfl

theorem processBlocks_len (l : List Nat) : ∀ (buf h : List Nat), h.length = 8 →
    (processBlocks buf h l).length = 8 := by
  induction l with
  | nil => intro buf h hh; simpa [processBlocks] using hh
  | cons b rest ih =>
    intro buf h hh
    simp only [processBlocks]
    split
    · exact ih _ _ (processBlock_len _ _)
    · exact ih _ _ hh

theorem foldr_wordBytes_len (ws : List Nat) :
    (ws.foldr (fun w acc => wordBytes w ++ acc) []).length = 4 * ws.length := by
  induction ws with
  | nil => rfl
  | cons w rest ih =>
    simp only [List.foldr_cons, List.length_append, List.length_cons, ih]
    have h4 : (wordBytes w).length = 4 := rfl
    omega

theorem sha256Bytes_len (msg : List Nat) : (sha256Bytes msg).length = 32 := by
  unfold sha256Bytes
  rw [foldr_wordBytes_len, processBlocks_len (padMsg msg) [] sha256H0 (by rfl)]

theorem foldr_byteHex_len (bs : List Nat) :
    (bs.foldr (fun b acc => byteHex b ++ acc) []).length = 2 * bs.length := by
  induction bs with
  | nil => rfl
  | cons b rest ih =>
    simp only [List.foldr_cons, List.length_append, List.length_cons, ih]
    have h2 : (byteHex b).length = 2 := rfl
    omega

theorem sha256hex_len (msg : List Nat) : (sha256hex msg).length = 64 := by
  unfold sha256hex
  rw [foldr_byteHex_len, sha256Bytes_len]

theorem sha256hex_ne_nil (msg : List Nat) : sha256hex msg ≠ [] := by
  intro h
  have := sha256hex_len msg
  rw [h] at this
  simp at this

theorem mem_foldr_wordBytes (ws : List Nat) (b : Nat)
    (hb : b ∈ ws.foldr (fun w acc => wordBytes w ++ acc) []) : b < 256 := by
  induction ws with
  | nil => simp at hb
  | cons w rest ih =>
    simp only [List.foldr_cons, List.mem_append] at hb
    rcases hb with hb | hb
    · simp [wordBytes] at hb
      rcases hb with h | h | h | h <;> omega
    · exact ih hb

theorem sha256Bytes_lt (msg : List Nat) (b : Nat) (hb : b ∈ sha256Bytes msg) : b < 256 :=
  mem_foldr_wordBytes _ _ hb

theorem hexDigitByte_lower (n : Nat) (h : n < 16) : isLowerHexByte (hexDigitByte n) = true := by
  simp only [hexDigitByte, isLowerHexByte]
  split <;> simp <;> omega

theorem sha256hex_lower (msg : List Nat) : (sha256hex msg).all isLowerHexByte = true := by
  rw [List.all_eq_true]
  intro b hb
  unfold sha256hex at hb
  have key : ∀ bs : List Nat, (∀ x ∈ bs, x < 256) →
      b ∈ bs.foldr (fun x acc => byteHex x ++ acc) [] → isLowerHexByte b = true := by
    intro bs
    induction bs with
    | nil => intro _ hmem; simp at hmem
    | cons x rest ih =>
      intro hlt hmem
      simp only [List.foldr_cons, List.mem_append] at hmem
      rcases hmem with hmem | hmem
      · have hx : x < 256 := hlt x (by simp)
        simp only [byteHex, List.mem_cons, List.mem_singleton] at hmem
        rcases hmem with rfl | rfl | h
        · exact hexDigitByte_lower _ (by omega)
        · exact hexDigitByte_lower _ (Nat.mod_lt _ (by omega))
        · simp at h
      · exact ih (fun y hy => hlt y (by simp [hy])) hmem
  exact key _ (fun x hx => sha256Bytes_lt msg x hx) hb

/-- C5: a MessagePairNode's Hash() is the empty string exactly while either
message is unset; once both are set it is the lowercase-hex SHA-256 digest
of assistant-payload ++ user-payload ++ RFC3339 timestamp, it is non-empty
(64 hex bytes), and it depends only on those fields, so repeated calls with
unchanged fields return the same value. -/
theorem pair_hash_spec (asst user : Option MessageData) (t : GoTime) :
    ((asst = none ∨ user = none) → NodeData.hash (.pair asst user t) = [])
    ∧ (∀ a u, asst = some a → user = some u →
        NodeData.hash (.pair asst user t)
            = sha256hex (a.b64EncodedContent ++ u.b64EncodedContent ++ t.rfc3339)
          ∧ NodeData.hash (.pair asst user t) ≠ []
          ∧ (NodeData.hash (.pair asst user t)).length = 64
          ∧ (NodeData.hash (.pair asst user t)).all isLowerHexByte = true)
    ∧ (∀ pa1 cs1 pa2 cs2,
        (MemNode.mk (.pair asst user t) pa1 cs1).hash
          = (MemNode.mk (.pair asst user t) pa2 cs2).hash) := by
  refine ⟨?_, ?_, ?_⟩
  · rintro (rfl | rfl)
    · rfl
    · cases asst <;> rfl
  · rintro a u rfl rfl
    refine ⟨rfl, sha256hex_ne_nil _, sha256hex_len _, sha256hex_lower _⟩
  · intro pa1 cs1 pa2 cs2
    rfl

/-- C5 witness: a pair with only the user message set hashes to the empty
string; the complete fixture pair hashes to a non-empty value. -/
theorem pair_hash_spec_witness :
    NodeData.hash (.pair none (some (exUser "QQ==")) exTime) = []
    ∧ NodeData.hash (exPairData "QQ==" "QQ==") ≠ [] := by
  constructor
  · exact (pair_hash_spec none (some (exUser "QQ==")) exTime).1 (Or.inl rfl)
  · exact ((pair_hash_spec (some (exAsst "QQ==")) (some (exUser "QQ==")) exTime).2.1
      (exAsst "QQ==") (exUser "QQ==") rfl rfl).2.1

end Brunch

namespace Brunch

/-! ### Unmarshal restores content and parent links -/

theorem setParent_content (n : MemNode) (s : List Nat) :
    contentOf (setParentLikeGo n s) = contentOf n := by
  cases n with
  | mk d pa cs => cases d <;> rfl

theorem setParent_linked (n : MemNode) (s q : List Nat) :
    linkedAtB (setParentLikeGo n s) q = linkedAtB n q := by
  cases n with
  | mk d pa cs => cases d <;> rfl

mutual
theorem contentOf_unmarshalAt : ∀ (d : MDoc) (p : List Nat),
    contentOf (unmarshalAt d p) = docContent d
  | .mk dd es, p => by
    simp [unmarshalAt, contentOf, docContent, contentF_unmarshalEntries es p 0]
theorem contentF_unmarshalEntries : ∀ (es : MDocEntries) (p : List Nat) (i : Nat),
    contentForest (unmarshalEntries es p i) = docContentEntries es
  | .nil, _, _ => rfl
  | .cons k d tl, p, i => by
    simp [unmarshalEntries, contentForest, docContentEntries, setParent_content,
      contentOf_unmarshalAt d (p ++ [i]), contentF_unmarshalEntries tl p (i + 1)]
end

mutual
theorem linked_unmarshalAt : ∀ (d : MDoc) (p : List Nat),
    linkedAtB (unmarshalAt d p) p = true
  | .mk dd es, p => by
    simpa [unmarshalAt, linkedAtB] using linked_unmarshalEntries es p 0
theorem linked_unmarshalEntries : ∀ (es : MDocEntries) (p : List Nat) (i : Nat),
    linkedF (unmarshalEntries es p i) p i = true
  | .nil, _, _ => rfl
  | .cons k d tl, p, i => by
    have hA := linked_unmarshalAt d (p ++ [i])
    have hT := linked_unmarshalEntries tl p (i + 1)
    cases hu : unmarshalAt d (p ++ [i]) with
    | mk cd cpa ccs =>
      rw [hu] at hA
      cases cd with
      | root pr md pp tp mt =>
        simp [unmarshalEntries, linkedF, setParentLikeGo, hu, MemNode.data, hA, hT]
      | pair a u tm =>
        simp [unmarshalEntries, linkedF, setParentLikeGo, hu, MemNode.data,
          MemNode.parentAddr, linkedAtB] at hA ⊢
        exact ⟨hA, hT⟩
end

/-! ### Sorting and map-collapse lemmas -/

theorem mem_ordInsert {α : Type} (key : α → List Nat) (a x : α) :
    ∀ l : List α, x ∈ ordInsert key a l → x = a ∨ x ∈ l := by
  intro l
  induction l with
  | nil => simp [ordInsert]
  | cons b tl ih =>
    simp only [ordInsert]
    split
    · intro h
      rcases List.mem_cons.mp h with h | h
      · exact Or.inl h
      · exact Or.inr h
    · intro h
      rcases List.mem_cons.mp h with h | h
      · exact Or.inr (by simp [h])
      · rcases ih h with h | h
        · exact Or.inl h
        · exact Or.inr (by simp [h])

theorem mem_sortByKey {α : Type} (key : α → List Nat) (x : α) :
    ∀ l : List α, x ∈ sortByKey key l → x ∈ l := by
  intro l
  induction l with
  | nil => simp [sortByKey]
  | cons a tl ih =>
    intro h
    rcases mem_ordInsert key a x _ h with rfl | h
    · simp
    · exact List.mem_cons_of_mem _ (ih h)

theorem ordInsert_map {α β : Type} (f : α → β) (kA : α → List Nat) (kB : β → List Nat)
    (hk : ∀ a, kB (f a) = kA a) (a : α) :
    ∀ l : List α, ordInsert kB (f a) (l.map f) = (ordInsert kA a l).map f := by
  intro l
  induction l with
  | nil => simp [ordInsert]
  | cons b tl ih =>
    simp only [List.map_cons, ordInsert, hk]
    split
    · simp
    · simp [ih]

theorem sortByKey_map {α β : Type} (f : α → β) (kA : α → List Nat) (kB : β → List Nat)
    (hk : ∀ a, kB (f a) = kA a) :
    ∀ l : List α, sortByKey kB (l.map f) = (sortByKey kA l).map f := by
  intro l
  induction l with
  | nil => rfl
  | cons a tl ih => simp [sortByKey, ih, ordInsert_map f kA kB hk]

theorem dedupLast_of_nodup : ∀ l : List (List Nat × MDoc),
    listNodupB (l.map Prod.fst) = true → dedupLast l = l := by
  intro l
  induction l with
  | nil => intro _; rfl
  | cons e tl ih =>
    intro h
    simp only [List.map_cons, listNodupB, Bool.and_eq_true] at h
    obtain ⟨hmem, hrest⟩ := h
    simp only [dedupLast]
    rw [if_neg (by simp_all), ih hrest]

/-! ### Marshal emits each children list in sorted-hash order -/

theorem contentOf_dataOf (n : MemNode) : (contentOf n).dataOf = n.data := by
  cases n with
  | mk d pa cs => rfl

theorem csort_dataOf (c : CTree) : (csort c).dataOf = c.dataOf := by
  cases c with
  | mk d cs => rfl

theorem marshalEntriesRaw_eq : ∀ f : MemForest,
    marshalEntriesRaw f = f.toList.map (fun c => (c.data.hash, marshalNode c))
  | .nil => rfl
  | .cons c tl => by
    simp [marshalEntriesRaw, MemForest.toList, marshalEntriesRaw_eq tl]

theorem csortF_eq : ∀ f : CForest, csortF f = f.toList.map csort
  | .nil => rfl
  | .cons hd tl => by simp [csortF, CForest.toList, csortF_eq tl]

theorem contentForest_toList : ∀ f : MemForest,
    (contentForest f).toList = f.toList.map contentOf
  | .nil => rfl
  | .cons c tl => by
    simp [contentForest, MemForest.toList, CForest.toList, contentForest_toList tl]

theorem docContentEntries_ofList (l : List (List Nat × MDoc)) :
    docContentEntries (MDocEntries.ofList l) = CForest.ofList (l.map (fun e => docContent e.2)) := by
  induction l with
  | nil => rfl
  | cons e tl ih => cases e; simp [MDocEntries.ofList, docContentEntries, CForest.ofList, ih]

mutual
theorem marshal_content : ∀ t : MemNode, sibDistinct t = true →
    docContent (marshalNode t) = csort (contentOf t)
  | .mk d pa cs, h => by
    have h2 : listNodupB (childHashes cs) = true ∧ sibDistinctF cs = true := by
      simpa [sibDistinct, Bool.and_eq_true] using h
    have hpt := marshal_content_forest cs h2.2
    simp only [marshalNode, docContent, contentOf, csort, docContentEntries_ofList]
    have hraw := marshalEntriesRaw_eq cs
    have hkeys : (marshalEntriesRaw cs).map Prod.fst = childHashes cs := by
      rw [hraw, List.map_map]; rfl
    have hded : dedupLast (marshalEntriesRaw cs) = marshalEntriesRaw cs :=
      dedupLast_of_nodup _ (by rw [hkeys]; exact h2.1)
    rw [hded, hraw,
      sortByKey_map (fun c => (c.data.hash, marshalNode c)) (fun c => c.data.hash) Prod.fst
        (fun a => rfl) cs.toList,
      List.map_map]
    have hstep5 :
        (sortByKey (fun c => c.data.hash) cs.toList).map
            ((fun e => docContent e.2) ∘ (fun c => (c.data.hash, marshalNode c)))
          = (sortByKey (fun c => c.data.hash) cs.toList).map (fun c => csort (contentOf c)) := by
      apply List.map_congr_left
      intro c hc
      exact hpt c (mem_sortByKey _ c _ hc)
    rw [hstep5, csortF_eq, contentForest_toList, List.map_map]
    have hfinal := sortByKey_map (fun c => csort (contentOf c)) (fun c => c.data.hash) ctreeKey
      (fun c => by simp [ctreeKey, csort_dataOf, contentOf_dataOf]) cs.toList
    simp only [Function.comp_def] at hfinal ⊢
    rw [hfinal]
theorem marshal_content_forest : ∀ f : MemForest, sibDistinctF f = true →
    ∀ c ∈ f.toList, docContent (marshalNode c) = csort (contentOf c)
  | .nil, _ => by intro c hc; simp [MemForest.toList] at hc
  | .cons hd tl, h => by
    intro c hc
    have h2 : sibDistinct hd = true ∧ sibDistinctF tl = true := by
      simpa [sibDistinctF, Bool.and_eq_true] using h
    rcases List.mem_cons.mp hc with rfl | hc
    · exact marshal_content c h2.1
    · exact marshal_content_forest tl h2.2 c hc
end

/-- C1 (amended): for a conversation tree whose message pairs are all
complete and whose sibling hashes are pairwise distinct at every node,
`unmarshalNode (marshalNode t)` reconstructs the tree exactly up to
reordering every children list into sorted-hash order (the serialized
children live in a hash-keyed map, so insertion order is not preserved):
the content equation gives every node the variant fields — hence the
Hash() — of its corresponding original, and every reconstructed pair
child's Parent pointer resolves to its reconstructed parent, at every
depth. Without the distinctness hypothesis duplicate siblings collapse,
and in general the original insertion order is not recovered (see the
counterexample). -/
theorem roundtrip_amended (t : MemNode) (_hc : allPairsComplete t = true)
    (hd : sibDistinct t = true) :
    contentOf (roundTrip t) = csort (contentOf t)
    ∧ linkedAtB (roundTrip t) [] = true := by
  constructor
  · rw [roundTrip, unmarshalNode, contentOf_unmarshalAt, marshal_content t hd]
  · exact linked_unmarshalAt (marshalNode t) []

end Brunch

namespace Brunch

/-- C9 (amended): AddChild appends the child at the end of the receiver's
children, preserving the existing order and the receiver's other fields,
and does not modify the child — in particular it does not set the child's
Parent pointer. The Parent pointer is set by the pair constructor instead:
`NewMessagePairNode(parent)` stores exactly the parent passed to it, which
in the standard `ExtendFrom` flow is the node the pair is then added to. -/
theorem addChild_spec (p c : MemNode) :
    (p.addChild c).children.toList = p.children.toList ++ [c]
    ∧ (p.addChild c).data = p.data
    ∧ (p.addChild c).parentAddr = p.parentAddr
    ∧ (∀ pa t, (NewMessagePairNode pa t).parentAddr = pa) := by
  cases p with
  | mk d pa cs =>
    refine ⟨?_, rfl, rfl, fun pa t => rfl⟩
    simp [MemNode.addChild, MemNode.children, memForest_toList_ofList]

/-- C9 counterexample: adding a freshly constructed pair whose constructor
received a nil parent leaves its Parent pointer nil; the claim would
require it to resolve to the receiver (the tree root, address `[]`). -/
theorem addChild_counterexample :
    parentAt (exRootNode.addChild (NewMessagePairNode none exTime)) [0] = some none
    ∧ (some none : Option (Option (List Nat))) ≠ some (some []) := by
  exact ⟨rfl, by simp⟩

theorem execNav_frame (st : ChatState) (c : NavCmd) :
    (execNav st c).root = st.root ∧ (execNav st c).chatEnabled = st.chatEnabled
    ∧ (execNav st c).queuedImages = st.queuedImages
    ∧ (execNav st c).pendingImages = st.pendingImages := by
  cases c with
  | jump h =>
    simp only [execNav, gotoNav]
    cases assocFind (mapTree st.root []) h <;> simp
  | up =>
    simp only [execNav, parentNav]
    cases hn : nodeAt st.root st.cursor with
    | none => simp
    | some n =>
      cases hd : n.data with
      | root pr md pp tp mt => simp [hd]
      | pair a u t => cases hpa : n.parentAddr <;> simp [hd, hpa]
  | down i =>
    simp only [execNav, childNav]
    cases hn : nodeAt st.root st.cursor with
    | none => simp
    | some n =>
      by_cases h1 : i < (n.children.len : Int)
      · by_cases h2 : (0 : Int) ≤ i
        · simp [h1, h2]
        · simp [h1, h2]
      · simp [h1]
  | top => simp [execNav, rootNav]

/-- C10: the navigation operations Goto, Parent, Child and Root only
reassign the cursor. Over every state and every sequence of calls —
whether each call succeeds, returns an error, or (negative Child index)
panics — the owned tree is the same value afterwards, so every node's
parent pointer, children list, messages and hash are unchanged, as are
the chat flag and the image queues. -/
theorem nav_frame (st : ChatState) (cmds : List NavCmd) :
    (runNav st cmds).root = st.root
    ∧ (runNav st cmds).chatEnabled = st.chatEnabled
    ∧ (runNav st cmds).queuedImages = st.queuedImages
    ∧ (runNav st cmds).pendingImages = st.pendingImages := by
  induction cmds generalizing st with
  | nil => exact ⟨rfl, rfl, rfl, rfl⟩
  | cons c rest ih =>
    obtain ⟨a1, a2, a3, a4⟩ := execNav_frame st c
    obtain ⟨b1, b2, b3, b4⟩ := ih (execNav st c)
    simp only [runNav, List.foldl_cons] at *
    exact ⟨b1.trans a1, b2.trans a2, b3.trans a3, b4.trans a4⟩

/-- C4: at a cursor with one child, `Child 0` succeeds and `Child 1` fails
with the index-out-of-bounds error, but `Child (-1)` passes the code's
only guard (`idx < len(children)`) and evaluates `Children[-1]`, a Go
runtime panic — not the index-out-of-bounds error the claim requires. -/
theorem child_negative_panics :
    navOutcome (childNav exOneChildState (-1)) = .error .runtimePanic
    ∧ navOutcome (childNav exOneChildState 0) = .ok [0]
    ∧ navOutcome (childNav exOneChildState 1) = .error .indexOutOfBounds := by
  exact ⟨rfl, rfl, rfl⟩

end Brunch

namespace Brunch

/-- C3 (amended): Goto builds the full hash index and moves the cursor only
on an exact full-hash match; whenever no exact match exists it fails with
the not-found error and the state is unchanged — even when some indexed
hash has the argument as a proper prefix. Prefix resolution exists only in
snapshot restore. -/
theorem goto_exact_only (st : ChatState) (h : List Nat) :
    (∀ p, assocFind (mapTree st.root []) h = some p →
        gotoNav st h = .ok { st with cursor := p })
    ∧ (assocFind (mapTree st.root []) h = none →
        gotoNav st h = .error .notFound) := by
  constructor
  · intro p hp; simp [gotoNav, hp]
  · intro hp; simp [gotoNav, hp]

/-! ### Path update lemmas -/

theorem get?_set_self {α : Type} : ∀ (l : List α) (i : Nat) (a : α), i < l.length →
    (l.set i a).get? i = some a
  | [], i, a, h => by simp at h
  | x :: tl, 0, a, _ => rfl
  | x :: tl, i + 1, a, h => by
    simpa [List.set] using get?_set_self tl i a (by simpa using h)

theorem memForest_len_eq : ∀ f : MemForest, f.len = f.toList.length
  | .nil => rfl
  | .cons hd tl => by simp [MemForest.len, MemForest.toList, memForest_len_eq tl]; omega

theorem nodeAt_append (p : List Nat) : ∀ (n : MemNode) (q : List Nat),
    nodeAt n (p ++ q) = (nodeAt n p).bind (fun m => nodeAt m q) := by
  induction p with
  | nil => intro n q; simp [nodeAt]
  | cons i rest ih =>
    intro n q
    simp only [List.cons_append, nodeAt]
    cases (MemForest.toList n.children).get? i with
    | none => simp
    | some c => simp [ih c]

theorem modifyAt_nodeAt (g : MemNode → MemNode) : ∀ (p : List Nat) (n m : MemNode),
    nodeAt n p = some m → nodeAt (modifyAt g n p) p = some (g m)
  | [], n, m, h => by
    simp only [nodeAt, Option.some_inj] at h
    simp [modifyAt, nodeAt, h]
  | i :: rest, n, m, h => by
    cases n with
    | mk d pa cs =>
      simp only [nodeAt, MemNode.children] at h
      cases hc : (MemForest.toList cs).get? i with
      | none => rw [hc] at h; simp at h
      | some c =>
        rw [hc] at h
        have hi : i < (MemForest.toList cs).length := by
          by_contra hlt
          rw [List.get?_eq_none.mpr (by omega)] at hc
          exact Option.noConfusion hc
        simp only [modifyAt, hc, nodeAt, MemNode.children, memForest_toList_ofList]
        rw [get?_set_self _ _ _ (by simpa using hi)]
        exact modifyAt_nodeAt g rest c m h

theorem nodeAt_singleton (n : MemNode) (j : Nat) :
    nodeAt n [j] = n.children.toList.get? j := by
  simp only [nodeAt]
  cases n.children.toList.get? j <;> rfl

theorem modifyAt_sibling (g : MemNode → MemNode) : ∀ (p : List Nat) (n m : MemNode),
    nodeAt n p = some m →
    ∀ j, ((g m).children.toList.get? j = m.children.toList.get? j) →
      nodeAt (modifyAt g n p) (p ++ [j]) = nodeAt n (p ++ [j]) := by
  intro p n m h j hg
  rw [nodeAt_append, nodeAt_append, modifyAt_nodeAt g p n m h, h]
  show nodeAt (g m) [j] = nodeAt m [j]
  rw [nodeAt_singleton, nodeAt_singleton, hg]

/-- C2 (amended): when the provider capability fails during SubmitMessage
the cursor is unchanged and the error is returned verbatim, but the tree
is not untouched: ExtendFrom has already attached a fresh empty
MessagePairNode under the cursor before the capability runs, and the
failure path never removes it. The cursor node's children list grows by
exactly that one unfilled pair (both messages unset, parent pointing at
the cursor node); the previously existing children are unchanged. -/
theorem submit_error_attaches_pair (st : ChatState) (msg : List Nat) (now : GoTime)
    (e : List Nat) (n : MemNode)
    (hEn : st.chatEnabled = true) (hCur : nodeAt st.root st.cursor = some n) :
    (submitMessage st msg now (.error e)).1 = .error e
    ∧ (submitMessage st msg now (.error e)).2.cursor = st.cursor
    ∧ countAt (submitMessage st msg now (.error e)).2.root st.cursor
        = some (n.children.len + 1)
    ∧ dataAt (submitMessage st msg now (.error e)).2.root
        (st.cursor ++ [n.children.toList.length]) = some (.pair none none now)
    ∧ parentAt (submitMessage st msg now (.error e)).2.root
        (st.cursor ++ [n.children.toList.length]) = some (some st.cursor)
    ∧ (∀ j, j < n.children.toList.length →
        nodeAt (submitMessage st msg now (.error e)).2.root (st.cursor ++ [j])
          = nodeAt st.root (st.cursor ++ [j])) := by
  have hshape : submitMessage st msg now (.error e)
      = (.error e,
         { root := addChildAt st.root st.cursor (NewMessagePairNode (some st.cursor) now),
           cursor := st.cursor, chatEnabled := st.chatEnabled,
           queuedImages := [],
           pendingImages := st.pendingImages ++ st.queuedImages }) := by
    cases hq : st.queuedImages.isEmpty with
    | true =>
      have hq2 : st.queuedImages = [] := by simpa using hq
      simp [submitMessage, hEn, hq, hq2]
    | false => simp [submitMessage, hEn, hq]
  have hAdd := modifyAt_nodeAt (fun m => m.addChild (NewMessagePairNode (some st.cursor) now))
    st.cursor st.root n hCur
  have hChildren : (n.addChild (NewMessagePairNode (some st.cursor) now)).children.toList
      = n.children.toList ++ [NewMessagePairNode (some st.cursor) now] := by
    cases n with
    | mk d pa cs => simp [MemNode.addChild, MemNode.children, memForest_toList_ofList]
  refine ⟨by rw [hshape], by rw [hshape], ?_, ?_, ?_, ?_⟩
  · rw [hshape]
    simp only [countAt, addChildAt, hAdd]
    simp [memForest_len_eq, hChildren]
  · rw [hshape]
    simp only [dataAt, addChildAt]
    rw [nodeAt_append, hAdd]
    show Option.map MemNode.data
        (nodeAt (n.addChild (NewMessagePairNode (some st.cursor) now))
          [n.children.toList.length]) = _
    rw [nodeAt_singleton, hChildren, List.get?_eq_getElem?, List.getElem?_concat_length]
    rfl
  · rw [hshape]
    simp only [parentAt, addChildAt]
    rw [nodeAt_append, hAdd]
    show Option.map MemNode.parentAddr
        (nodeAt (n.addChild (NewMessagePairNode (some st.cursor) now))
          [n.children.toList.length]) = _
    rw [nodeAt_singleton, hChildren, List.get?_eq_getElem?, List.getElem?_concat_length]
    rfl
  · intro j hj
    rw [hshape]
    apply modifyAt_sibling _ _ _ _ hCur
    rw [hChildren]
    rw [List.get?_eq_getElem?, List.get?_eq_getElem?, List.getElem?_append_left hj]

/-- C7: restoring a snapshot with a non-empty stored branch hash resolves
it against the rebuilt tree's hash index by exact match first, then by
prefix scan, seating the cursor on the resolved node; when neither
matches, restore fails rather than silently seating the cursor on the
root. -/
theorem restore_resolution (providers : List (List Nat)) (snap : Snapshot)
    (hroot : (unmarshalNode snap.contents).data.isRoot = true)
    (hprov : providers.contains snap.providerName = true)
    (hab : snap.activeBranch.isEmpty = false) :
    (∀ p, assocFind (mapTree (unmarshalNode snap.contents) []) snap.activeBranch = some p →
        restoreCursor (newChatFromSnapshot providers snap) = .ok p)
    ∧ (assocFind (mapTree (unmarshalNode snap.contents) []) snap.activeBranch = none →
        ∀ k v, scanPfx (mapTree (unmarshalNode snap.contents) []) snap.activeBranch
            = some (k, v) →
          restoreCursor (newChatFromSnapshot providers snap) = .ok v
          ∧ snap.activeBranch.isPrefixOf k = true)
    ∧ (assocFind (mapTree (unmarshalNode snap.contents) []) snap.activeBranch = none →
        scanPfx (mapTree (unmarshalNode snap.contents) []) snap.activeBranch = none →
        newChatFromSnapshot providers snap = .error .branchNotFound) := by
  cases hd : (unmarshalNode snap.contents).data with
  | pair a u t => rw [hd] at hroot; simp [NodeData.isRoot] at hroot
  | root pr md pp tp mt =>
    have hmem : snap.providerName ∈ providers := by simpa using hprov
    refine ⟨?_, ?_, ?_⟩
    · intro p hp
      simp [newChatFromSnapshot, hd, hmem, hab, hp, restoreCursor, Except.map]
    · intro hnone k v hscan
      refine ⟨?_, ?_⟩
      · simp [newChatFromSnapshot, hd, hmem, hab, hnone, hscan, restoreCursor, Except.map]
      · have := List.find?_some hscan
        simpa using this
    · intro hnone hscan
      simp [newChatFromSnapshot, hd, hmem, hab, hnone, hscan]

end Brunch

namespace Brunch

/-! ### Parser lemmas -/

theorem startsFence_false_of_ne (b : Nat) (l : List Nat) (hb : b ≠ 96) :
    startsFence (b :: l) = false := by
  cases l with
  | nil => rfl
  | cons x tl =>
    cases tl with
    | nil => rfl
    | cons y tt => simp [startsFence, hb]

theorem startsFence_fence (t : List Nat) : startsFence (96 :: 96 :: 96 :: t) = true := by
  simp [startsFence]

theorem startsFence_pad (b : Nat) (tl t : List Nat) :
    startsFence (b :: (tl ++ 96 :: 96 :: 96 :: t)) = startsFence (b :: (tl ++ [96, 96])) := by
  cases tl with
  | nil => simp [startsFence]
  | cons x tt =>
    cases tt with
    | nil => simp [startsFence]
    | cons y tu => simp [startsFence]

theorem containsFence_cons (b : Nat) (rest : List Nat) :
    containsFence (b :: rest) = (startsFence (b :: rest) || containsFence rest) := by
  simp only [containsFence, findFence]
  cases hs : startsFence (b :: rest) with
  | false =>
    rw [if_neg (by simp [hs])]
    cases findFence rest <;> simp
  | true => rw [if_pos (by simp [hs])]; simp

theorem containsFence_append_right (l r : List Nat) (h : containsFence r = true) :
    containsFence (l ++ r) = true := by
  induction l with
  | nil => simpa using h
  | cons b tl ih => rw [List.cons_append, containsFence_cons, ih]; simp

theorem findFence_none_of_not_contains (l : List Nat) (h : containsFence l = false) :
    findFence l = none := by
  unfold containsFence at h
  cases hf : findFence l
  · rfl
  · rw [hf] at h; simp at h

theorem eolSplit_append (line rest : List Nat) (hl : 10 ∉ line) (hr : rest ≠ []) :
    eolSplit (line ++ 10 :: rest) = some (line, rest) := by
  induction line with
  | nil =>
    simp only [List.nil_append, eolSplit]
    rw [if_pos (by rfl), if_neg (by simpa using hr)]
  | cons b tl ih =>
    have hb : b ≠ 10 := fun hcon => hl (by simp [hcon])
    simp only [List.cons_append, eolSplit, List.append_eq]
    rw [if_neg (by simpa using hb), ih (fun hx => hl (by simp [hx]))]

theorem eolSplit_shape : ∀ (l line r : List Nat), eolSplit l = some (line, r) →
    l = line ++ 10 :: r := by
  intro l
  induction l with
  | nil => intro line r h; simp [eolSplit] at h
  | cons b rest ih =>
    intro line r h
    simp only [eolSplit] at h
    by_cases hb : b = 10
    · rw [if_pos (by simp [hb])] at h
      by_cases hre : rest.isEmpty
      · rw [if_pos hre] at h; exact absurd h (by simp)
      · rw [if_neg hre] at h
        obtain ⟨h1, h2⟩ := Prod.mk.injEq _ _ _ _ ▸ Option.some_inj.mp h
        subst h1; subst h2; simp [hb]
    · rw [if_neg (by simpa using hb)] at h
      cases he : eolSplit rest with
      | none => rw [he] at h; exact absurd h (by simp)
      | some pr =>
        rw [he] at h
        cases pr with
        | mk line0 r0 =>
          simp only [Option.some_inj, Prod.mk.injEq] at h
          obtain ⟨h1, h2⟩ := h
          subst h1; subst h2
          simp [ih line0 r0 he]

theorem findFence_exact (data tail : List Nat)
    (h : containsFence (data ++ [96, 96]) = false) :
    findFence (data ++ 96 :: 96 :: 96 :: tail) = some (data, tail) := by
  induction data with
  | nil => simp [findFence, startsFence]
  | cons b tl ih =>
    rw [List.cons_append, containsFence_cons] at h
    have h1 : startsFence (b :: (tl ++ [96, 96])) = false := by
      cases hs : startsFence (b :: (tl ++ [96, 96])) <;> simp [hs] at h ⊢
    have h2 : containsFence (tl ++ [96, 96]) = false := by
      cases hs : containsFence (tl ++ [96, 96]) <;> simp [hs] at h ⊢
    simp only [List.cons_append, findFence, List.append_eq]
    rw [if_neg (by rw [startsFence_pad]; simp [h1]), ih h2]

theorem splitOnByte_no_sep : ∀ info : List Nat, 58 ∉ info →
    splitOnByte 58 info = [info] := by
  intro info
  induction info with
  | nil => intro _; rfl
  | cons b tl ih =>
    intro h
    have hb : b ≠ 58 := fun hcon => h (by simp [hcon])
    simp only [splitOnByte, List.append_eq]
    rw [if_neg (by simpa using hb), ih (fun hx => h (by simp [hx]))]

theorem splitOnByte_single (t nm : List Nat) (ht : 58 ∉ t) (hn : 58 ∉ nm) :
    splitOnByte 58 (t ++ 58 :: nm) = [t, nm] := by
  induction t with
  | nil =>
    simp only [List.nil_append, splitOnByte]
    rw [if_pos (by rfl), splitOnByte_no_sep nm hn]
  | cons b tl ih =>
    have hb : b ≠ 58 := fun hcon => ht (by simp [hcon])
    simp only [List.cons_append, splitOnByte, List.append_eq]
    rw [if_neg (by simpa using hb), ih (fun hx => ht (by simp [hx]))]

end Brunch

namespace Brunch

/-- C6 (amended): a fenced block whose info line trims to the empty string
is classified as a NonFileArtifact carrying the raw block body — not as a
FileArtifact; an info string `type` yields a FileArtifact with that type
and empty name, and `type:filename` yields a FileArtifact with that type
and name. `line` is the info line, `data` the block body, `tail` whatever
follows the closing fence. -/
theorem block_classification :
    (∀ (line data tail : List Nat) (pos : Nat), 10 ∉ line → trimSpace line = [] →
        containsFence (data ++ [96, 96]) = false →
        parseMarkdownBlock (line ++ 10 :: (data ++ 96 :: 96 :: 96 :: tail)) pos
          = .ok (.nonFile data, line.length + 1 + data.length + 3))
    ∧ (∀ (line data tail : List Nat) (pos : Nat) (t nm : List Nat), 10 ∉ line →
        trimSpace line = t ++ 58 :: nm → 58 ∉ t → 58 ∉ nm →
        containsFence (data ++ [96, 96]) = false →
        parseMarkdownBlock (line ++ 10 :: (data ++ 96 :: 96 :: 96 :: tail)) pos
          = .ok (.file (pos + line.length + 1) data nm t,
                 line.length + 1 + data.length + 3))
    ∧ (∀ (line data tail : List Nat) (pos : Nat) (info : List Nat), 10 ∉ line →
        trimSpace line = info → info ≠ [] → 58 ∉ info →
        containsFence (data ++ [96, 96]) = false →
        parseMarkdownBlock (line ++ 10 :: (data ++ 96 :: 96 :: 96 :: tail)) pos
          = .ok (.file (pos + line.length + 1) data [] info,
                 line.length + 1 + data.length + 3)) := by
  refine ⟨?_, ?_, ?_⟩
  · intro line data tail pos hl htr hcf
    have he := eolSplit_append line (data ++ 96 :: 96 :: 96 :: tail) hl (by simp)
    have hf := findFence_exact data tail hcf
    simp [parseMarkdownBlock, he, htr, hf]
  · intro line data tail pos t nm hl htr ht hn hcf
    have he := eolSplit_append line (data ++ 96 :: 96 :: 96 :: tail) hl (by simp)
    have hf := findFence_exact data tail hcf
    have hsp := splitOnByte_single t nm ht hn
    simp [parseMarkdownBlock, he, htr, hf, hsp]
  · intro line data tail pos info hl htr hne hni hcf
    have he := eolSplit_append line (data ++ 96 :: 96 :: 96 :: tail) hl (by simp)
    have hf := findFence_exact data tail hcf
    have hsp := splitOnByte_no_sep info hni
    obtain ⟨x, xs, rfl⟩ := List.exists_cons_of_ne_nil hne
    simp [parseMarkdownBlock, he, htr, hf, hsp]

/-- C6 witness: the repository test's own inputs — an info-less fence
classifies as NonFile, `go:test.go` as a named typed file, `python` as a
type-only file. -/
theorem block_classification_witness :
    parseMarkdownBlock (gs "  " ++ 10 :: (gs "body\n" ++ 96 :: 96 :: 96 :: gs "xx")) 7
      = .ok (.nonFile (gs "body\n"), 11)
    ∧ parseMarkdownBlock (gs "go:test.go" ++ 10 :: (gs "package main\n" ++ 96 :: 96 :: 96 :: [])) 3
      = .ok (.file 14 (gs "package main\n") (gs "test.go") (gs "go"), 27)
    ∧ parseMarkdownBlock (gs "python" ++ 10 :: (gs "pass\n" ++ 96 :: 96 :: 96 :: [])) 3
      = .ok (.file 10 (gs "pass\n") [] (gs "python"), 15) := by
  refine ⟨?_, ?_, ?_⟩
  · have h := block_classification.1 (gs "  ") (gs "body\n") (gs "xx") 7
      (by decide) (by decide) (by decide)
    simpa using h
  · have h := block_classification.2.1 (gs "go:test.go") (gs "package main\n") [] 3
      (gs "go") (gs "test.go") (by decide) (by decide) (by decide) (by decide) (by decide)
    simpa using h
  · have h := block_classification.2.2 (gs "python") (gs "pass\n") [] 3
      (gs "python") (by decide) (by decide) (by decide) (by decide) (by decide)
    simpa using h

/-! ### The parse loop fails whole on an unterminated fence -/

theorem parseLoop_error_empty : ∀ (k : Nat) (rem : List Nat) (pos : Nat) (acc : List Nat),
    rem.length ≤ k → (parseLoop rem pos acc).2.isSome = true →
    (parseLoop rem pos acc).1 = [] := by
  intro k
  induction k with
  | zero =>
    intro rem pos acc hlen herr
    have : rem = [] := by cases rem <;> simp_all
    subst this
    simp [parseLoop] at herr
  | succ n ih =>
    intro rem pos acc hlen herr
    cases rem with
    | nil => simp [parseLoop] at herr
    | cons b rest =>
      unfold parseLoop at herr ⊢
      by_cases hf : startsFence (b :: rest) = true
      · rw [if_pos hf] at herr ⊢
        cases hpb : parseMarkdownBlock (rest.drop 2) (pos + 3) with
        | error e => simp [hpb]
        | ok val =>
          cases val with
          | mk a consumed =>
            cases hrec : parseLoop ((rest.drop 2).drop consumed) (pos + 3 + consumed) [] with
            | mk arts err =>
              cases err with
              | some e => simp only [hpb, hrec]
              | none =>
                simp only [hpb, hrec] at herr
                simp at herr
      · rw [if_neg hf] at herr ⊢
        exact ih rest (pos + 1) (acc ++ [b]) (by simp at hlen; omega) herr

theorem parseLoop_step_text (b : Nat) (rest : List Nat) (pos : Nat) (acc : List Nat)
    (hb : startsFence (b :: rest) = false) :
    parseLoop (b :: rest) pos acc = parseLoop rest (pos + 1) (acc ++ [b]) := by
  conv_lhs => unfold parseLoop
  rw [if_neg (by simp [hb])]

theorem parseLoop_skip : ∀ (pre : List Nat), 96 ∉ pre → ∀ (rem0 : List Nat) (pos : Nat)
    (acc : List Nat), parseLoop (pre ++ rem0) pos acc
      = parseLoop rem0 (pos + pre.length) (acc ++ pre) := by
  intro pre
  induction pre with
  | nil => intro _ rem0 pos acc; simp
  | cons b tl ih =>
    intro h rem0 pos acc
    have hb : b ≠ 96 := fun hx => h (by simp [hx])
    rw [List.cons_append,
      parseLoop_step_text b (tl ++ rem0) pos acc (startsFence_false_of_ne b _ hb),
      ih (fun hx => h (by simp [hx])) rem0 (pos + 1) (acc ++ [b])]
    have harith : pos + 1 + tl.length = pos + (b :: tl).length := by simp; omega
    rw [harith]
    congr 1
    simp

theorem parseMarkdownBlock_unterminated (mid : List Nat) (pos : Nat)
    (h : containsFence mid = false) : ∃ e, parseMarkdownBlock mid pos = .error e := by
  unfold parseMarkdownBlock
  cases he : eolSplit mid with
  | none => exact ⟨.noEOL, rfl⟩
  | some pr =>
    cases pr with
    | mk line r =>
      have hmid := eolSplit_shape mid line r he
      have hr : containsFence r = false := by
        cases hcf : containsFence r with
        | false => rfl
        | true =>
          have : containsFence mid = true := by
            rw [hmid]
            have : line ++ 10 :: r = (line ++ [10]) ++ r := by simp
            rw [this]
            exact containsFence_append_right _ _ hcf
          rw [this] at h
          exact absurd h (by simp)
      have hff := findFence_none_of_not_contains r hr
      by_cases hi : (trimSpace line).isEmpty
      · exact ⟨.noBlockIndicator, by simp [hi, hff]⟩
      · exact ⟨.noBlockIndicator, by simp [hi, hff]⟩

/-- C8: the parse is all-or-nothing. Whenever the parser reports an error
the artifact list it returns is empty — no partial results — and a payload
containing a fence opener whose block is never terminated by another fence
always produces such an error: the whole parse fails and returns no
artifacts at all. -/
theorem unterminated_fence_fails :
    (∀ content : List Nat, (parseArtifacts content).2.isSome = true →
        (parseArtifacts content).1 = [])
    ∧ (∀ pre mid : List Nat, 96 ∉ pre → containsFence mid = false →
        (parseArtifacts (pre ++ 96 :: 96 :: 96 :: mid)).2.isSome = true
        ∧ (parseArtifacts (pre ++ 96 :: 96 :: 96 :: mid)).1 = []) := by
  have hpart1 : ∀ content : List Nat, (parseArtifacts content).2.isSome = true →
      (parseArtifacts content).1 = [] := by
    intro content herr
    exact parseLoop_error_empty content.length content 0 [] le_rfl herr
  refine ⟨hpart1, ?_⟩
  intro pre mid hpre hmid
  obtain ⟨e, hpb⟩ := parseMarkdownBlock_unterminated mid (0 + pre.length + 3) hmid
  have hrun : parseArtifacts (pre ++ 96 :: 96 :: 96 :: mid) = ([], some e) := by
    unfold parseArtifacts
    rw [parseLoop_skip pre hpre (96 :: 96 :: 96 :: mid) 0 []]
    conv_lhs => unfold parseLoop
    rw [if_pos (startsFence_fence mid)]
    rw [show ((96 :: 96 :: mid).drop 2) = mid from rfl, hpb]
  rw [hrun]
  exact ⟨rfl, rfl⟩

/-- C8 witness: a payload with leading text and an unterminated `go` block
parses to an error with an empty artifact list. -/
theorem unterminated_fence_witness :
    (parseArtifacts (gs "hello " ++ 96 :: 96 :: 96 :: gs "go\nfoo")).2.isSome = true
    ∧ (parseArtifacts (gs "hello " ++ 96 :: 96 :: 96 :: gs "go\nfoo")).1 = [] := by
  have h2 := unterminated_fence_fails.2 (gs "hello ") (gs "go\nfoo") (by decide) (by decide)
  exact ⟨h2.1, unterminated_fence_fails.1 _ h2.1⟩

end Brunch

namespace Brunch

/-- C2 counterexample: with a childless root, chat enabled and a failing
provider call, SubmitMessage leaves an empty pair attached — the cursor
node's children list length changes from 0 to 1, refuting the claim that
the tree is exactly as it was before the call. -/
theorem submit_error_counterexample :
    countAt (submitMessage exEmptyState (gs "hi") exTime (.error (gs "boom"))).2.root []
      = some 1
    ∧ countAt exEmptyState.root [] = some 0
    ∧ (submitMessage exEmptyState (gs "hi") exTime (.error (gs "boom"))).2.cursor = []
    ∧ dataAt (submitMessage exEmptyState (gs "hi") exTime (.error (gs "boom"))).2.root [0]
        = some (.pair none none exTime) := by
  exact ⟨rfl, rfl, rfl, rfl⟩

/-- C2 witness: the amended statement instantiated at the childless-root
state with a failing provider call. -/
theorem submit_error_witness :
    (submitMessage exEmptyState (gs "hi") exTime (.error (gs "boom"))).1 = .error (gs "boom")
    ∧ (submitMessage exEmptyState (gs "hi") exTime (.error (gs "boom"))).2.cursor = [] := by
  have h := submit_error_attaches_pair exEmptyState (gs "hi") exTime (gs "boom")
    exRootNode rfl rfl
  exact ⟨h.1, h.2.1⟩

/-- C6 counterexample: the payload from the repository's own test — a
fenced block with no info string. The parser classifies it as a
NonFileArtifact, refuting the claim that such a block becomes a
FileArtifact with empty name and type. -/
theorem empty_info_counterexample :
    parseArtifacts (gs "```\nsome non-file content\n```")
      = ([.nonFile (gs "some non-file content\n")], none)
    ∧ Artifact.isFile (.nonFile (gs "some non-file content\n")) = false := by
  refine ⟨?_, rfl⟩
  have hc : gs "```\nsome non-file content\n```"
      = 96 :: 96 :: 96 :: gs "\nsome non-file content\n```" := by decide
  unfold parseArtifacts
  rw [hc]
  conv_lhs => unfold parseLoop
  rw [if_pos (startsFence_fence _)]
  have hpb : parseMarkdownBlock ((96 :: 96 :: gs "\nsome non-file content\n```").drop 2) (0 + 3)
      = .ok (.nonFile (gs "some non-file content\n"), 26) := by rfl
  have hnil : ((96 :: 96 :: gs "\nsome non-file content\n```").drop 2).drop 26 = [] := by decide
  simp only [hpb, hnil]
  have hEnd : parseLoop [] (0 + 3 + 26) [] = ([], none) := by
    conv_lhs => unfold parseLoop
    rfl
  simp only [hEnd]
  rfl

end Brunch

namespace Brunch

set_option maxRecDepth 4000000 in
set_option maxHeartbeats 4000000 in
/-- C1 counterexample: both failure modes of the round-trip claim at
concrete complete-pair trees. With two identical children (equal hashes)
the serialized children map collapses them: the reconstructed root has one
child where the original has two. With two distinct children stored in the
reverse of sorted-hash order, the reconstruction returns them sorted: the
first child's hash differs from the original first child's, the two
children having swapped places — the original insertion order is not
reconstructed. -/
theorem roundtrip_counterexample :
    countAt (roundTrip exDupTree) [] = some 1
    ∧ countAt exDupTree [] = some 2
    ∧ allPairsComplete exDupTree = true
    ∧ allPairsComplete exFlipTree = true
    ∧ sibDistinct exFlipTree = true
    ∧ hashAt (roundTrip exFlipTree) [0] ≠ hashAt exFlipTree [0]
    ∧ hashAt (roundTrip exFlipTree) [0] = hashAt exFlipTree [1]
    ∧ hashAt (roundTrip exFlipTree) [1] = hashAt exFlipTree [0] := by
  refine ⟨rfl, rfl, rfl, rfl, by decide, by decide, rfl, rfl⟩

set_option maxRecDepth 4000000 in
set_option maxHeartbeats 4000000 in
/-- C1 witness: the amended round-trip statement instantiated at a
three-pair tree with pairwise distinct sibling hashes. -/
theorem roundtrip_amended_witness :
    allPairsComplete exWitTree = true ∧ sibDistinct exWitTree = true
    ∧ contentOf (roundTrip exWitTree) = csort (contentOf exWitTree)
    ∧ linkedAtB (roundTrip exWitTree) [] = true := by
  have h1 : allPairsComplete exWitTree = true := by decide
  have h2 : sibDistinct exWitTree = true := by decide
  have h := roundtrip_amended exWitTree h1 h2
  exact ⟨h1, h2, h.1, h.2⟩

set_option maxRecDepth 4000000 in
set_option maxHeartbeats 4000000 in
/-- C3 counterexample: at a tree whose only pair child's hash starts with
`eca5f940`, Goto of that prefix returns the not-found error even though
the index contains a matching hash — refuting the claim that Goto falls
back to prefix matching. -/
theorem goto_counterexample :
    navOutcome (gotoNav exOneChildState (gs "eca5f940")) = .error .notFound
    ∧ (scanPfx (mapTree exOneChildState.root []) (gs "eca5f940")).isSome = true := by
  exact ⟨rfl, rfl⟩

set_option maxRecDepth 4000000 in
set_option maxHeartbeats 4000000 in
/-- C3 witness: the amended statement instantiated at the same tree — the
exact full hash moves the cursor to the child, and the prefix alone fails
with not-found. -/
theorem goto_exact_only_witness :
    gotoNav exOneChildState exHashX = .ok { exOneChildState with cursor := [0] }
    ∧ gotoNav exOneChildState (gs "eca5f940") = .error .notFound := by
  have h1 := (goto_exact_only exOneChildState exHashX).1 [0] (by decide)
  have h2 := (goto_exact_only exOneChildState (gs "eca5f940")).2 (by decide)
  exact ⟨h1, h2⟩

set_option maxRecDepth 4000000 in
set_option maxHeartbeats 4000000 in
/-- C7 witness: restoring the one-child snapshot with the exact stored
hash and with a prefix both seat the cursor on the pair child; a stored
hash matching nothing is an error. -/
theorem restore_resolution_witness :
    restoreCursor (newChatFromSnapshot [gs "anthropic"] exSnapExact) = .ok [0]
    ∧ restoreCursor (newChatFromSnapshot [gs "anthropic"] exSnapPfx) = .ok [0]
    ∧ newChatFromSnapshot [gs "anthropic"] exSnapMiss = .error .branchNotFound := by
  have h1 := (restore_resolution [gs "anthropic"] exSnapExact
    (by decide) (by decide) (by decide)).1 [0] (by decide)
  have h2 := ((restore_resolution [gs "anthropic"] exSnapPfx
    (by decide) (by decide) (by decide)).2.1 (by decide) exHashX [0] (by decide)).1
  have h3 := (restore_resolution [gs "anthropic"] exSnapMiss
    (by decide) (by decide) (by decide)).2.2 (by decide) (by decide)
  exact ⟨h1, h2, h3⟩

end Brunch
